import Mathlib

/-!
# Verification of the TOS picbed plugin (src/main.ts)

A shallow embedding of the core text-manipulation logic of the plugin:

* `TosUploader.getUrl` (public mode), `TosUploader.parseKeyFromUrlOrKey`
  together with faithful models of the JS platform builtins they invoke
  (`encodeURIComponent`, `decodeURIComponent`, the pathname component of
  the WHATWG `new URL` parser),
* the `editor-paste` handler (placeholder insertion, success/failure
  reconciliation, residual cleanup loop),
* the `editor-menu` handlers (delete-one and delete-all), including a
  model of the `/!\[.*?\]\((.*?)\)/` regular expression,
* storage-key naming (`normPrefix` / `uploadFile`) and placeholder-token
  generation.

Strings are modelled by their underlying character lists; machine work on
JS strings (UTF-16) is modelled at the Unicode-scalar level, which is
faithful for all well-formed inputs considered here.
-/

set_option maxRecDepth 20000
set_option maxHeartbeats 1600000

namespace TosPicbed

/-! ## Percent encoding: models of `encodeURIComponent` / `decodeURIComponent`

`encodeURIComponent` leaves the unreserved characters
`A-Z a-z 0-9 - _ . ! ~ * ' ( )` unchanged and replaces every other
character by the `%XX` (uppercase hex) encoding of its UTF-8 bytes.

`decodeURIComponent` is modelled in two stages that are equivalent to the
JS semantics: first every `%XX` triple is replaced by its raw byte and
every plain character by its UTF-8 bytes (a plain character's first byte
is never a continuation byte, so this grouping is equivalent to decoding
each maximal `%`-run separately), then the whole byte string is decoded
as UTF-8.  Malformed `%`-sequences and invalid UTF-8 (including overlong
forms for 3- and 4-byte sequences, surrogates and out-of-range values)
yield `none`, modelling the `URIError` thrown by JS. -/

/-- The characters `encodeURIComponent` leaves unescaped:
`A-Z`, `a-z`, `0-9` and `- _ . ! ~ * ' ( )` (given by code point). -/
def isUriUnreserved (c : Char) : Bool :=
  (65 ≤ c.toNat && c.toNat ≤ 90) || (97 ≤ c.toNat && c.toNat ≤ 122) ||
  (48 ≤ c.toNat && c.toNat ≤ 57) ||
  c.toNat = 45 || c.toNat = 95 || c.toNat = 46 || c.toNat = 33 ||
  c.toNat = 126 || c.toNat = 42 || c.toNat = 39 || c.toNat = 40 || c.toNat = 41

/-- UTF-8 encoding of a Unicode scalar value, as a list of bytes. -/
def utf8Enc (c : Char) : List Nat :=
  if c.toNat < 128 then [c.toNat]
  else if c.toNat < 2048 then [192 + c.toNat / 64, 128 + c.toNat % 64]
  else if c.toNat < 65536 then
    [224 + c.toNat / 4096, 128 + c.toNat / 64 % 64, 128 + c.toNat % 64]
  else
    [240 + c.toNat / 262144, 128 + c.toNat / 4096 % 64, 128 + c.toNat / 64 % 64,
     128 + c.toNat % 64]

def bytesOf (cs : List Char) : List Nat := cs.flatMap utf8Enc

/-- UTF-8 decoding, processed one byte at a time.  `need` is the number
of continuation bytes still expected, `acc` the value accumulated so far
and `lo` the smallest value the finished sequence may legally denote
(rejecting overlong forms).  The final value must also be a Unicode
scalar (not a surrogate, below `0x110000`). -/
def utf8DecGo : List Nat → Nat → Nat → Nat → Option (List Char)
  | [], need, _, _ => if need = 0 then some [] else none
  | b :: bs, 0, _, _ =>
    if b < 128 then (fun cs => Char.ofNat b :: cs) <$> utf8DecGo bs 0 0 0
    else if b < 192 then none
    else if b < 224 then utf8DecGo bs 1 (b - 192) 128
    else if b < 240 then utf8DecGo bs 2 (b - 224) 2048
    else if b < 248 then utf8DecGo bs 3 (b - 240) 65536
    else none
  | b :: bs, need + 1, acc, lo =>
    if 128 ≤ b ∧ b < 192 then
      if need = 0 then
        if lo ≤ acc * 64 + (b - 128) ∧ acc * 64 + (b - 128) < 1114112 ∧
            ¬(55296 ≤ acc * 64 + (b - 128) ∧ acc * 64 + (b - 128) < 57344) then
          (fun cs => Char.ofNat (acc * 64 + (b - 128)) :: cs) <$> utf8DecGo bs 0 0 0
        else none
      else utf8DecGo bs need (acc * 64 + (b - 128)) lo
    else none

/-- UTF-8 decoding of a byte string; `none` on any malformed input
(stray continuation byte, truncated sequence, overlong form, surrogate
code point, value above `0x10FFFF`). -/
def utf8Dec (bs : List Nat) : Option (List Char) := utf8DecGo bs 0 0 0

def hexDigit (n : Nat) : Char := if n < 10 then Char.ofNat (48 + n) else Char.ofNat (55 + n)

def isHexDig (c : Char) : Bool :=
  (48 ≤ c.toNat && c.toNat ≤ 57) || (65 ≤ c.toNat && c.toNat ≤ 70) ||
  (97 ≤ c.toNat && c.toNat ≤ 102)

def hexVal (c : Char) : Nat :=
  if 48 ≤ c.toNat ∧ c.toNat ≤ 57 then c.toNat - 48
  else if 65 ≤ c.toNat ∧ c.toNat ≤ 70 then c.toNat - 55
  else c.toNat - 87

/-- `%XX` encoding (uppercase) of one byte. -/
def pctByte (b : Nat) : List Char := ['%', hexDigit (b / 16), hexDigit (b % 16)]

def encList : List Char → List Char
  | [] => []
  | c :: cs =>
    (if isUriUnreserved c then [c] else (utf8Enc c).flatMap pctByte) ++ encList cs

/-- First stage of `decodeURIComponent`: turn the string into the byte
string in which every `%XX` triple contributes its byte and every plain
character contributes its UTF-8 bytes.  `none` models the `URIError`
thrown on a `%` not followed by two hex digits. -/
def pctToBytes : List Char → Option (List Nat)
  | [] => some []
  | c :: cs =>
    if c = '%' then
      match cs with
      | h1 :: h2 :: cs2 =>
        if isHexDig h1 && isHexDig h2 then
          (fun bs => (hexVal h1 * 16 + hexVal h2) :: bs) <$> pctToBytes cs2
        else none
      | _ => none
    else (fun bs => utf8Enc c ++ bs) <$> pctToBytes cs

/-- Models the JS builtin `encodeURIComponent`. -/
def encodeURIComponent (s : String) : String := ⟨encList s.data⟩

/-- Models the JS builtin `decodeURIComponent`; `none` models a thrown
`URIError`. -/
def decodeURIComponent (s : String) : Option String :=
  match pctToBytes s.data with
  | none => none
  | some bs =>
    match utf8Dec bs with
    | none => none
    | some cs => some ⟨cs⟩

/-! ## WHATWG URL: the `pathname` of `new URL(s)` for absolute `https` URLs

The plugin calls `new URL(input)` and reads `u.pathname`.  We model the
pathname computation of the WHATWG URL parser for inputs that begin with
the literal scheme `https://` (every URL built by `getUrl` has this
shape); for any other input the model returns `none`, corresponding to
the `TypeError` thrown on the scheme-less keys the plugin otherwise
feeds to `parseKeyFromUrlOrKey`.  The authority is everything up to the
first `/`, `\`, `?` or `#` (credentials, ports and host validation do
not affect the pathname and are not modelled); an empty authority is a
parse failure.  The path is split on `/` and `\`, single-dot and
double-dot segments (including their `%2e` spellings) are normalized as
in the URL standard, and the path serializes as `/`-joined segments.
Re-encoding of characters outside the path-safe set is not modelled:
no input considered here contains such characters. -/

def hostEnd (c : Char) : Bool := c = '/' || c = '\\' || c = '?' || c = '#'

def queryStart (c : Char) : Bool := c = '?' || c = '#'

def isSep (c : Char) : Bool := c = '/' || c = '\\'

/-- Split a character list on separators chosen by `p` (the result always
has one more element than the number of separators). -/
def splitByP (p : Char → Bool) : List Char → List (List Char)
  | [] => [[]]
  | c :: cs =>
    if p c then [] :: splitByP p cs
    else
      match splitByP p cs with
      | s :: ss => (c :: s) :: ss
      | [] => [[c]]

/-- Join segments with `/`, the inverse of splitting on `/`. -/
def joinSlash : List (List Char) → List Char
  | [] => []
  | [s] => s
  | s :: ss => s ++ '/' :: joinSlash ss

/-- A path segment that the URL standard treats as a single dot. -/
def isDot1 (s : List Char) : Bool :=
  s == ['.'] || s == ['%', '2', 'e'] || s == ['%', '2', 'E']

/-- A path segment that the URL standard treats as a double dot. -/
def isDot2 (s : List Char) : Bool :=
  s == ['.', '.'] || s == ['.', '%', '2', 'e'] || s == ['.', '%', '2', 'E'] ||
  s == ['%', '2', 'e', '.'] || s == ['%', '2', 'E', '.'] ||
  s == ['%', '2', 'e', '%', '2', 'e'] || s == ['%', '2', 'e', '%', '2', 'E'] ||
  s == ['%', '2', 'E', '%', '2', 'e'] || s == ['%', '2', 'E', '%', '2', 'E']

/-- WHATWG path-state normalization of the segment list: a double-dot
segment pops the last entry, a single-dot segment is dropped, and when
either ends the path an empty segment is appended. -/
def normSegs (acc : List (List Char)) : List (List Char) → List (List Char)
  | [] => acc
  | [s] =>
    if isDot2 s then acc.dropLast ++ [[]]
    else if isDot1 s then acc ++ [[]]
    else acc ++ [s]
  | s :: s2 :: rest =>
    normSegs (if isDot2 s then acc.dropLast else if isDot1 s then acc else acc ++ [s]) (s2 :: rest)

/-- URL path serializer: each segment is written after a `/`. -/
def serPath (ss : List (List Char)) : List Char := ss.flatMap (fun s => '/' :: s)

def litHttps : List Char := ['h', 't', 't', 'p', 's', ':', '/', '/']

/-- Strip an expected literal from the front of a list. -/
def dropLit : List Char → List Char → Option (List Char)
  | [], rest => some rest
  | _ :: _, [] => none
  | l :: ls, c :: cs => if c = l then dropLit ls cs else none

/-- The `pathname` of `new URL s` (see the section comment for the
modelled domain). -/
def urlPathname (s : String) : Option String :=
  match dropLit litHttps s.data with
  | none => none
  | some rest =>
    let host := rest.takeWhile (fun c => !hostEnd c)
    let after := rest.dropWhile (fun c => !hostEnd c)
    if host.isEmpty then none
    else
      match after with
      | [] => some "/"
      | sep :: pathRest =>
        if queryStart sep then some "/"
        else
          let pathChars := pathRest.takeWhile (fun c => !queryStart c)
          some ⟨serPath (normSegs [] (splitByP isSep pathChars))⟩

/-! ## `TosUploader.getUrl` (public mode) and `parseKeyFromUrlOrKey` -/

/-- Models `doc.replace(/^\/+/, "")`: strip all leading slashes. -/
def dropLeadSlashes (s : String) : String := ⟨s.data.dropWhile (fun c => c = '/')⟩

/-- The percent-encoded key of `getUrl`:
`key.split("/").map(encodeURIComponent).join("/")`. -/
def safeKeyOf (key : String) : String :=
  ⟨joinSlash ((splitByP (fun c => c = '/') key.data).map encList)⟩

/-- `TosUploader.getUrl` in public-URL mode (`usePublicUrl = true`). -/
def getUrlPublic (bucket region key : String) : String :=
  "https://" ++ bucket ++ ".tos-" ++ region ++ ".volces.com/" ++ safeKeyOf key

/-- `TosUploader.parseKeyFromUrlOrKey`: try `new URL(input)` and return
the percent-decoded pathname without its leading slashes; when URL
parsing or percent-decoding throws, return the input without leading
slashes. -/
def parseKeyFromUrlOrKey (input : String) : String :=
  match urlPathname input with
  | some p =>
    match decodeURIComponent (dropLeadSlashes p) with
    | some d => d
    | none => dropLeadSlashes input
  | none => dropLeadSlashes input

/-- A storage key written as a list of its path segments. -/
def joinKey (segs : List String) : String := ⟨joinSlash (segs.map String.data)⟩

/-! ## Round-trip lemmas for the percent-encoding model -/

theorem char_toNat_bounds (c : Char) :
    c.toNat < 1114112 ∧ ¬(55296 ≤ c.toNat ∧ c.toNat < 57344) := by
  have h := c.valid
  unfold Char.toNat
  rcases h with h | h
  · constructor <;> omega
  · constructor <;> omega

theorem pctToBytes_nil : pctToBytes [] = some [] := rfl

theorem pctToBytes_pct (h1 h2 : Char) (cs : List Char)
    (hh1 : isHexDig h1 = true) (hh2 : isHexDig h2 = true) :
    pctToBytes ('%' :: h1 :: h2 :: cs) =
      (fun bs => (hexVal h1 * 16 + hexVal h2) :: bs) <$> pctToBytes cs := by
  rw [pctToBytes.eq_def]
  simp [hh1, hh2]

theorem pctToBytes_plain (c : Char) (cs : List Char) (hc : ¬(c = '%')) :
    pctToBytes (c :: cs) = (fun bs => utf8Enc c ++ bs) <$> pctToBytes cs := by
  rw [pctToBytes.eq_def]
  simp [hc]

theorem go_ascii (b : Nat) (bs : List Nat) (h : b < 128) :
    utf8DecGo (b :: bs) 0 0 0 = (fun cs => Char.ofNat b :: cs) <$> utf8DecGo bs 0 0 0 := by
  rw [utf8DecGo.eq_def]
  dsimp only
  rw [if_pos h]

theorem go_lead2 (b : Nat) (bs : List Nat) (h : 192 ≤ b) (h2 : b < 224) :
    utf8DecGo (b :: bs) 0 0 0 = utf8DecGo bs 1 (b - 192) 128 := by
  rw [utf8DecGo.eq_def]
  dsimp only
  rw [if_neg (by omega : ¬(b < 128)), if_neg (by omega : ¬(b < 192)), if_pos h2]

theorem go_lead3 (b : Nat) (bs : List Nat) (h : 224 ≤ b) (h2 : b < 240) :
    utf8DecGo (b :: bs) 0 0 0 = utf8DecGo bs 2 (b - 224) 2048 := by
  rw [utf8DecGo.eq_def]
  dsimp only
  rw [if_neg (by omega : ¬(b < 128)), if_neg (by omega : ¬(b < 192)),
    if_neg (by omega : ¬(b < 224)), if_pos h2]

theorem go_lead4 (b : Nat) (bs : List Nat) (h : 240 ≤ b) (h2 : b < 248) :
    utf8DecGo (b :: bs) 0 0 0 = utf8DecGo bs 3 (b - 240) 65536 := by
  rw [utf8DecGo.eq_def]
  dsimp only
  rw [if_neg (by omega : ¬(b < 128)), if_neg (by omega : ¬(b < 192)),
    if_neg (by omega : ¬(b < 224)), if_neg (by omega : ¬(b < 240)), if_pos h2]

theorem go_cont32 (b : Nat) (bs : List Nat) (acc lo : Nat) (hb : 128 ≤ b) (hb2 : b < 192) :
    utf8DecGo (b :: bs) 3 acc lo = utf8DecGo bs 2 (acc * 64 + (b - 128)) lo := by
  rw [utf8DecGo.eq_def]
  dsimp only
  rw [if_pos ⟨hb, hb2⟩, if_neg (by omega : ¬(2 = 0))]

theorem go_cont21 (b : Nat) (bs : List Nat) (acc lo : Nat) (hb : 128 ≤ b) (hb2 : b < 192) :
    utf8DecGo (b :: bs) 2 acc lo = utf8DecGo bs 1 (acc * 64 + (b - 128)) lo := by
  rw [utf8DecGo.eq_def]
  dsimp only
  rw [if_pos ⟨hb, hb2⟩, if_neg (by omega : ¬(1 = 0))]

theorem go_fin (b : Nat) (bs : List Nat) (acc lo : Nat) (hb : 128 ≤ b) (hb2 : b < 192)
    (hv : lo ≤ acc * 64 + (b - 128) ∧ acc * 64 + (b - 128) < 1114112 ∧
      ¬(55296 ≤ acc * 64 + (b - 128) ∧ acc * 64 + (b - 128) < 57344)) :
    utf8DecGo (b :: bs) 1 acc lo =
      (fun cs => Char.ofNat (acc * 64 + (b - 128)) :: cs) <$> utf8DecGo bs 0 0 0 := by
  rw [utf8DecGo.eq_def]
  dsimp only
  rw [if_pos ⟨hb, hb2⟩, if_pos rfl, if_pos hv]

theorem utf8DecGo_enc (c : Char) (bs : List Nat) :
    utf8DecGo (utf8Enc c ++ bs) 0 0 0 = (fun cs => c :: cs) <$> utf8DecGo bs 0 0 0 := by
  obtain ⟨hlt, hsur⟩ := char_toNat_bounds c
  have hofn := Char.ofNat_toNat c
  by_cases h1 : c.toNat < 128
  · rw [show utf8Enc c = [c.toNat] from by rw [utf8Enc, if_pos h1]]
    rw [List.cons_append, go_ascii _ _ h1, hofn, List.nil_append]
  · by_cases h2 : c.toNat < 2048
    · rw [show utf8Enc c = [192 + c.toNat / 64, 128 + c.toNat % 64] from by
        rw [utf8Enc, if_neg h1, if_pos h2]]
      rw [List.cons_append, List.cons_append, List.nil_append,
        go_lead2 _ _ (by omega) (by omega),
        go_fin _ _ _ _ (by omega) (by omega) (by refine ⟨by omega, by omega, by omega⟩),
        show (192 + c.toNat / 64 - 192) * 64 + (128 + c.toNat % 64 - 128) = c.toNat
          from by omega, hofn]
    · by_cases h3 : c.toNat < 65536
      · rw [show utf8Enc c =
            [224 + c.toNat / 4096, 128 + c.toNat / 64 % 64, 128 + c.toNat % 64] from by
          rw [utf8Enc, if_neg h1, if_neg h2, if_pos h3]]
        rw [List.cons_append, List.cons_append, List.cons_append, List.nil_append,
          go_lead3 _ _ (by omega) (by omega),
          go_cont21 _ _ _ _ (by omega) (by omega),
          go_fin _ _ _ _ (by omega) (by omega) (by refine ⟨by omega, by omega, by omega⟩),
          show ((224 + c.toNat / 4096 - 224) * 64 + (128 + c.toNat / 64 % 64 - 128)) * 64 +
            (128 + c.toNat % 64 - 128) = c.toNat from by omega, hofn]
      · rw [show utf8Enc c =
            [240 + c.toNat / 262144, 128 + c.toNat / 4096 % 64, 128 + c.toNat / 64 % 64,
             128 + c.toNat % 64] from by
          rw [utf8Enc, if_neg h1, if_neg h2, if_neg h3]]
        rw [List.cons_append, List.cons_append, List.cons_append, List.cons_append,
          List.nil_append,
          go_lead4 _ _ (by omega) (by omega),
          go_cont32 _ _ _ _ (by omega) (by omega),
          go_cont21 _ _ _ _ (by omega) (by omega),
          go_fin _ _ _ _ (by omega) (by omega) (by refine ⟨by omega, by omega, by omega⟩),
          show (((240 + c.toNat / 262144 - 240) * 64 + (128 + c.toNat / 4096 % 64 - 128)) * 64 +
            (128 + c.toNat / 64 % 64 - 128)) * 64 + (128 + c.toNat % 64 - 128) = c.toNat
            from by omega, hofn]

theorem utf8Dec_enc_append (c : Char) (bs : List Nat) :
    utf8Dec (utf8Enc c ++ bs) = (fun cs => c :: cs) <$> utf8Dec bs :=
  utf8DecGo_enc c bs

theorem utf8Dec_bytesOf_append (cs : List Char) (rest : List Nat) :
    utf8Dec (bytesOf cs ++ rest) = (fun ds => cs ++ ds) <$> utf8Dec rest := by
  induction cs with
  | nil =>
    simp only [bytesOf, List.flatMap_nil, List.nil_append]
    cases utf8Dec rest <;> rfl
  | cons c cs ih =>
    rw [show bytesOf (c :: cs) = utf8Enc c ++ bytesOf cs from by simp [bytesOf]]
    rw [List.append_assoc, utf8Dec_enc_append, ih]
    cases utf8Dec rest <;> rfl

theorem utf8Dec_bytesOf (cs : List Char) : utf8Dec (bytesOf cs) = some cs := by
  have h := utf8Dec_bytesOf_append cs []
  rw [List.append_nil] at h
  rw [h, show utf8Dec [] = some [] from rfl]
  simp

theorem utf8Enc_lt_256 (c : Char) : ∀ b ∈ utf8Enc c, b < 256 := by
  obtain ⟨hlt, -⟩ := char_toNat_bounds c
  intro b hb
  by_cases h1 : c.toNat < 128
  · simp [utf8Enc, h1] at hb
    omega
  · by_cases h2 : c.toNat < 2048
    · simp [utf8Enc, h1, h2] at hb
      rcases hb with rfl | rfl <;> omega
    · by_cases h3 : c.toNat < 65536
      · simp [utf8Enc, h1, h2, h3] at hb
        rcases hb with rfl | rfl | rfl <;> omega
      · simp [utf8Enc, h1, h2, h3] at hb
        rcases hb with rfl | rfl | rfl | rfl <;> omega

theorem hexDigit_spec (n : Nat) (h : n < 16) :
    isHexDig (hexDigit n) = true ∧ hexVal (hexDigit n) = n := by
  interval_cases n <;> decide

theorem pctToBytes_pctRun (bl : List Nat) (hbl : ∀ b ∈ bl, b < 256) (rest : List Char) :
    pctToBytes (bl.flatMap pctByte ++ rest) = (fun bs => bl ++ bs) <$> pctToBytes rest := by
  induction bl with
  | nil =>
    simp only [List.flatMap_nil, List.nil_append]
    cases pctToBytes rest <;> rfl
  | cons b bl ih =>
    have hb : b < 256 := hbl b (by simp)
    have h1 := hexDigit_spec (b / 16) (by omega)
    have h2 := hexDigit_spec (b % 16) (by omega)
    have hbyte : hexVal (hexDigit (b / 16)) * 16 + hexVal (hexDigit (b % 16)) = b := by
      rw [h1.2, h2.2]; omega
    simp only [List.flatMap_cons, pctByte, List.append_assoc, List.cons_append,
      List.nil_append]
    rw [pctToBytes_pct _ _ _ h1.1 h2.1, hbyte, ih (fun x hx => hbl x (by simp [hx]))]
    cases pctToBytes rest <;> rfl

theorem unreserved_ascii (c : Char) (hu : isUriUnreserved c = true) : c.toNat < 128 := by
  simp only [isUriUnreserved, Bool.or_eq_true, Bool.and_eq_true, decide_eq_true_eq] at hu
  omega

theorem unreserved_ne_pct (c : Char) (hu : isUriUnreserved c = true) : ¬(c = '%') := by
  intro h
  subst h
  exact absurd hu (by decide)

theorem encList_append (cs : List Char) (rest : List Char) :
    pctToBytes (encList cs ++ rest) = (fun bs => bytesOf cs ++ bs) <$> pctToBytes rest := by
  induction cs with
  | nil =>
    simp only [encList, List.nil_append, bytesOf, List.flatMap_nil]
    cases pctToBytes rest <;> rfl
  | cons c cs ih =>
    by_cases hu : isUriUnreserved c
    · have henc : utf8Enc c = [c.toNat] := by
        rw [utf8Enc, if_pos (unreserved_ascii c hu)]
      simp only [encList, if_pos hu, List.cons_append, List.nil_append]
      rw [pctToBytes_plain c _ (unreserved_ne_pct c hu), ih]
      cases pctToBytes rest <;> simp [bytesOf]
    · simp only [encList, if_neg hu, List.append_assoc]
      rw [pctToBytes_pctRun (utf8Enc c) (utf8Enc_lt_256 c), ih]
      cases pctToBytes rest <;> simp [bytesOf]

/-- `decodeURIComponent` inverts `encodeURIComponent` (JS percent
encoding always round-trips). -/
theorem decode_encode (s : String) :
    decodeURIComponent (encodeURIComponent s) = some s := by
  have h := encList_append s.data []
  rw [List.append_nil, pctToBytes_nil] at h
  show (match pctToBytes (encList s.data) with
    | none => none
    | some bs =>
      match utf8Dec bs with
      | none => none
      | some cs => some (⟨cs⟩ : String)) = some s
  rw [h]
  show (match utf8Dec (bytesOf s.data ++ []) with
    | none => none
    | some cs => some (⟨cs⟩ : String)) = some s
  rw [List.append_nil, utf8Dec_bytesOf]

/-! ## Lemmas about the URL model -/

theorem hexDigit_hostEnd (n : Nat) (h : n < 16) : hostEnd (hexDigit n) = false := by
  interval_cases n <;> decide

theorem unreserved_hostEnd (c : Char) (h : isUriUnreserved c = true) : hostEnd c = false := by
  cases hc : hostEnd c
  · rfl
  · exfalso
    simp only [hostEnd, Bool.or_eq_true, decide_eq_true_eq] at hc
    rcases hc with ((rfl | rfl) | rfl) | rfl <;> exact absurd h (by decide)

theorem encList_hostEnd (cs : List Char) : ∀ x ∈ encList cs, hostEnd x = false := by
  induction cs with
  | nil => simp [encList]
  | cons c cs ih =>
    intro x hx
    simp only [encList] at hx
    rcases List.mem_append.mp hx with hx | hx
    · by_cases hu : isUriUnreserved c
      · rw [if_pos hu] at hx
        simp only [List.mem_singleton] at hx
        subst hx
        exact unreserved_hostEnd _ hu
      · rw [if_neg hu] at hx
        obtain ⟨b, hb, hxb⟩ := List.mem_flatMap.mp hx
        have hb256 : b < 256 := utf8Enc_lt_256 c b hb
        simp only [pctByte, List.mem_cons, List.not_mem_nil, or_false] at hxb
        rcases hxb with rfl | rfl | rfl
        · decide
        · exact hexDigit_hostEnd _ (by omega)
        · exact hexDigit_hostEnd _ (by omega)
    · exact ih x hx

theorem hostEnd_false (x : Char) (h : hostEnd x = false) :
    queryStart x = false ∧ isSep x = false ∧ ¬(x = '/') := by
  simp only [hostEnd, Bool.or_eq_false_iff, decide_eq_false_iff_not] at h
  obtain ⟨⟨⟨h1, h2⟩, h3⟩, h4⟩ := h
  refine ⟨?_, ?_, h1⟩
  · simp [queryStart, h3, h4]
  · simp [isSep, h1, h2]

theorem encList_ne_nil (cs : List Char) (h : cs ≠ []) : encList cs ≠ [] := by
  cases cs with
  | nil => exact absurd rfl h
  | cons c cs =>
    simp only [encList]
    intro hemp
    rcases List.append_eq_nil.mp hemp with ⟨h1, -⟩
    by_cases hu : isUriUnreserved c
    · rw [if_pos hu] at h1
      exact List.cons_ne_nil _ _ h1
    · rw [if_neg hu] at h1
      have hEne : utf8Enc c ≠ [] := by
        unfold utf8Enc
        split_ifs <;> simp
      cases hE : utf8Enc c with
      | nil => exact hEne hE
      | cons b bs =>
        rw [hE] at h1
        simp [pctByte] at h1

theorem dropLit_append (lit rest : List Char) : dropLit lit (lit ++ rest) = some rest := by
  induction lit with
  | nil => rfl
  | cons l ls ih => simp [dropLit, ih]

theorem splitByP_sepFree (p : Char → Bool) (s : List Char) (h : ∀ c ∈ s, p c = false) :
    splitByP p s = [s] := by
  induction s with
  | nil => rfl
  | cons c cs ih =>
    have hc := h c (by simp)
    have ih2 := ih (fun x hx => h x (by simp [hx]))
    simp [splitByP, hc, ih2]

theorem splitByP_append (p : Char → Bool) (s : List Char) (y : Char) (r : List Char)
    (hs : ∀ c ∈ s, p c = false) (hy : p y = true) :
    splitByP p (s ++ y :: r) = s :: splitByP p r := by
  induction s with
  | nil => simp [splitByP, hy]
  | cons c cs ih =>
    have hc := hs c (by simp)
    have ih2 := ih (fun x hx => hs x (by simp [hx]))
    simp [splitByP, hc, ih2]

theorem splitByP_joinSlash (p : Char → Bool) (ss : List (List Char)) (hne : ss ≠ [])
    (hall : ∀ s ∈ ss, ∀ c ∈ s, p c = false) (hp : p '/' = true) :
    splitByP p (joinSlash ss) = ss := by
  induction ss with
  | nil => exact absurd rfl hne
  | cons s ss ih =>
    cases ss with
    | nil =>
      show splitByP p (joinSlash [s]) = [s]
      rw [show joinSlash [s] = s from rfl]
      exact splitByP_sepFree p s (hall s (by simp))
    | cons s2 ss2 =>
      rw [show joinSlash (s :: s2 :: ss2) = s ++ '/' :: joinSlash (s2 :: ss2) from rfl]
      rw [splitByP_append p s '/' _ (hall s (by simp)) hp]
      rw [ih (by simp) (fun t ht c hc => hall t (by simp [ht]) c hc)]

theorem normSegs_id (ss : List (List Char))
    (h : ∀ s ∈ ss, isDot1 s = false ∧ isDot2 s = false) :
    ∀ acc, normSegs acc ss = acc ++ ss := by
  induction ss with
  | nil => intro acc; simp [normSegs]
  | cons s ss ih =>
    intro acc
    cases ss with
    | nil =>
      have h1 := h s (by simp)
      simp [normSegs, h1.1, h1.2]
    | cons s2 ss2 =>
      have h1 := h s (by simp)
      rw [show normSegs acc (s :: s2 :: ss2) =
        normSegs (if isDot2 s then acc.dropLast else if isDot1 s then acc else acc ++ [s])
          (s2 :: ss2) from rfl]
      rw [h1.1, h1.2]
      simp only [Bool.false_eq_true, if_false]
      rw [ih (fun t ht => h t (by simp [ht])) (acc ++ [s])]
      simp

theorem serPath_join (ss : List (List Char)) (h : ss ≠ []) :
    serPath ss = '/' :: joinSlash ss := by
  induction ss with
  | nil => exact absurd rfl h
  | cons s ss ih =>
    cases ss with
    | nil => simp [serPath, joinSlash]
    | cons s2 ss2 =>
      rw [show serPath (s :: s2 :: ss2) = ('/' :: s) ++ serPath (s2 :: ss2) from by
        simp [serPath]]
      rw [ih (by simp)]
      rw [show joinSlash (s :: s2 :: ss2) = s ++ '/' :: joinSlash (s2 :: ss2) from rfl]
      simp

theorem bytesOf_append (xs ys : List Char) : bytesOf (xs ++ ys) = bytesOf xs ++ bytesOf ys := by
  simp [bytesOf]

theorem pctToBytes_encList (cs : List Char) : pctToBytes (encList cs) = some (bytesOf cs) := by
  have h := encList_append cs []
  rw [List.append_nil, pctToBytes_nil] at h
  simpa using h

theorem pctToBytes_joinEnc (segs : List (List Char)) (hne : segs ≠ []) :
    pctToBytes (joinSlash (segs.map encList)) = some (bytesOf (joinSlash segs)) := by
  induction segs with
  | nil => exact absurd rfl hne
  | cons s ss ih =>
    cases ss with
    | nil =>
      rw [show (List.map encList [s]) = [encList s] from rfl,
        show joinSlash [encList s] = encList s from rfl,
        show joinSlash [s] = s from rfl]
      exact pctToBytes_encList s
    | cons s2 ss2 =>
      rw [List.map_cons, List.map_cons,
        show joinSlash (encList s :: encList s2 :: List.map encList ss2) =
          encList s ++ '/' :: joinSlash (encList s2 :: List.map encList ss2) from rfl,
        show (encList s2 :: List.map encList ss2) = List.map encList (s2 :: ss2) from by
          rw [List.map_cons]]
      rw [encList_append, pctToBytes_plain '/' _ (by decide), ih (by simp)]
      rw [show joinSlash (s :: s2 :: ss2) = s ++ '/' :: joinSlash (s2 :: ss2) from rfl]
      rw [bytesOf_append, show bytesOf ('/' :: joinSlash (s2 :: ss2)) =
        utf8Enc '/' ++ bytesOf (joinSlash (s2 :: ss2)) from by simp [bytesOf]]
      rfl

theorem decode_joinEnc (segs : List (List Char)) (hne : segs ≠ []) :
    decodeURIComponent ⟨joinSlash (segs.map encList)⟩ = some ⟨joinSlash segs⟩ := by
  show (match pctToBytes (joinSlash (segs.map encList)) with
    | none => none
    | some bs =>
      match utf8Dec bs with
      | none => none
      | some cs => some (⟨cs⟩ : String)) = some ⟨joinSlash segs⟩
  rw [pctToBytes_joinEnc segs hne]
  dsimp only
  rw [utf8Dec_bytesOf]

/-! ## The public-URL round trip (claim C1) -/

/-- The host part of a public URL, as characters. -/
def hostC (bucket region : String) : List Char :=
  bucket.data ++ (".tos-").data ++ region.data ++ (".volces.com").data

theorem getUrlPublic_data (bucket region key : String) :
    (getUrlPublic bucket region key).data =
      litHttps ++ (hostC bucket region ++ '/' :: (safeKeyOf key).data) := by
  show ("https://" ++ bucket ++ ".tos-" ++ region ++ ".volces.com/" ++ safeKeyOf key).data = _
  simp only [String.data_append]
  rw [show (['.', 'v', 'o', 'l', 'c', 'e', 's', '.', 'c', 'o', 'm', '/'] : List Char) =
    ['.', 'v', 'o', 'l', 'c', 'e', 's', '.', 'c', 'o', 'm'] ++ ['/'] from rfl]
  simp [hostC, litHttps, List.append_assoc]

theorem hostC_chars (bucket region : String)
    (hb : ∀ c ∈ bucket.data, hostEnd c = false)
    (hr : ∀ c ∈ region.data, hostEnd c = false) :
    ∀ c ∈ hostC bucket region, hostEnd c = false := by
  intro c hc
  simp only [hostC, List.mem_append] at hc
  rcases hc with ((hc | hc) | hc) | hc
  · exact hb c hc
  · fin_cases hc <;> decide
  · exact hr c hc
  · fin_cases hc <;> decide

theorem hostC_ne_nil (bucket region : String) : hostC bucket region ≠ [] := by
  intro h
  simp only [hostC, List.append_eq_nil] at h
  exact absurd h.1.1.2 (by decide)

theorem joinSlash_mem (ss : List (List Char)) (c : Char) (h : c ∈ joinSlash ss) :
    c = '/' ∨ ∃ s ∈ ss, c ∈ s := by
  induction ss with
  | nil => exact absurd h (by simp [joinSlash])
  | cons s ss ih =>
    cases ss with
    | nil =>
      right
      exact ⟨s, by simp, h⟩
    | cons s2 ss2 =>
      rw [show joinSlash (s :: s2 :: ss2) = s ++ '/' :: joinSlash (s2 :: ss2) from rfl] at h
      rcases List.mem_append.mp h with h | h
      · exact Or.inr ⟨s, by simp, h⟩
      · rcases List.mem_cons.mp h with h | h
        · exact Or.inl h
        · rcases ih h with h | ⟨t, ht, hc⟩
          · exact Or.inl h
          · exact Or.inr ⟨t, by simp [ht], hc⟩

theorem safeKey_queryFree (key : String) :
    ∀ c ∈ (safeKeyOf key).data, queryStart c = false := by
  intro c hc
  rcases joinSlash_mem _ c hc with rfl | ⟨t, ht, hct⟩
  · rfl
  · obtain ⟨u, -, rfl⟩ := List.mem_map.mp ht
    exact (hostEnd_false c (encList_hostEnd u c hct)).1

theorem urlPathname_getUrl (bucket region key : String)
    (hb : ∀ c ∈ bucket.data, hostEnd c = false)
    (hr : ∀ c ∈ region.data, hostEnd c = false) :
    urlPathname (getUrlPublic bucket region key) =
      some ⟨serPath (normSegs [] (splitByP isSep (safeKeyOf key).data))⟩ := by
  have hh := hostC_chars bucket region hb hr
  rw [urlPathname, getUrlPublic_data, dropLit_append]
  dsimp only
  rw [List.takeWhile_append_of_pos (by
    intro a ha
    rw [hh a ha]
    rfl)]
  rw [List.takeWhile_cons_of_neg (by decide), List.append_nil]
  rw [List.dropWhile_append_of_pos (by
    intro a ha
    rw [hh a ha]
    rfl)]
  rw [List.dropWhile_cons_of_neg (by decide)]
  rw [if_neg (by
    rw [List.isEmpty_iff]
    exact hostC_ne_nil bucket region)]
  dsimp only
  rw [if_neg (by decide : ¬(queryStart '/' = true))]
  rw [List.takeWhile_eq_self_iff.mpr (by
    intro x hx
    rw [safeKey_queryFree key x hx]
    rfl)]

theorem enc_determines (s X d : String) (hE : encodeURIComponent s = X)
    (hd : decodeURIComponent X = some d) : s = d := by
  have h := decode_encode s
  rw [hE, hd] at h
  exact (Option.some.inj h).symm

theorem encList_not_dot (s : String) (h1 : s ≠ ".") (h2 : s ≠ "..") :
    isDot1 (encList s.data) = false ∧ isDot2 (encList s.data) = false := by
  constructor
  · cases hd : isDot1 (encList s.data)
    · rfl
    · exfalso
      simp only [isDot1, Bool.or_eq_true, beq_iff_eq] at hd
      rcases hd with (h | h) | h
      · exact absurd (enc_determines s "." "."
          (by rw [encodeURIComponent, h]) (by decide)) h1
      · exact absurd (enc_determines s "%2e" "."
          (by rw [encodeURIComponent, h]) (by decide)) h1
      · exact absurd (enc_determines s "%2E" "."
          (by rw [encodeURIComponent, h]) (by decide)) h1
  · cases hd : isDot2 (encList s.data)
    · rfl
    · exfalso
      simp only [isDot2, Bool.or_eq_true, beq_iff_eq] at hd
      rcases hd with ((((((((h | h) | h) | h) | h) | h) | h) | h) | h)
      · exact absurd (enc_determines s ".." ".."
          (by rw [encodeURIComponent, h]) (by decide)) h2
      · exact absurd (enc_determines s ".%2e" ".."
          (by rw [encodeURIComponent, h]) (by decide)) h2
      · exact absurd (enc_determines s ".%2E" ".."
          (by rw [encodeURIComponent, h]) (by decide)) h2
      · exact absurd (enc_determines s "%2e." ".."
          (by rw [encodeURIComponent, h]) (by decide)) h2
      · exact absurd (enc_determines s "%2E." ".."
          (by rw [encodeURIComponent, h]) (by decide)) h2
      · exact absurd (enc_determines s "%2e%2e" ".."
          (by rw [encodeURIComponent, h]) (by decide)) h2
      · exact absurd (enc_determines s "%2e%2E" ".."
          (by rw [encodeURIComponent, h]) (by decide)) h2
      · exact absurd (enc_determines s "%2E%2e" ".."
          (by rw [encodeURIComponent, h]) (by decide)) h2
      · exact absurd (enc_determines s "%2E%2E" ".."
          (by rw [encodeURIComponent, h]) (by decide)) h2

theorem data_ne_nil (s : String) (h : s ≠ "") : s.data ≠ [] := by
  intro hd
  apply h
  cases s
  simp only at hd
  rw [hd]

theorem joinKey_cons_data (s0 : String) (rest : List String) :
    (joinKey (s0 :: rest)).data = joinSlash ((s0 :: rest).map String.data) := rfl

/-- C1 (amended): for every bucket and region free of URL delimiters and
every storage key composed of path segments that percent-encoding
round-trips, contain no slashes (neither in the segment nor introduced by
encoding), and are neither empty nor `.` nor `..`, parsing the public URL
built by `getUrl` returns the original key. -/
theorem C1_publicUrl_key_roundTrip (bucket region : String)
    (hb : ∀ c ∈ bucket.data, hostEnd c = false)
    (hr : ∀ c ∈ region.data, hostEnd c = false)
    (segs : List String)
    (hseg : ∀ s ∈ segs, ∀ c ∈ s.data, ¬(c = '/'))
    (hrt : ∀ s ∈ segs, decodeURIComponent (encodeURIComponent s) = some s)
    (henc : ∀ s ∈ segs, ∀ c ∈ (encodeURIComponent s).data, ¬(c = '/'))
    (hnd : ∀ s ∈ segs, s ≠ "" ∧ s ≠ "." ∧ s ≠ "..") :
    parseKeyFromUrlOrKey (getUrlPublic bucket region (joinKey segs)) = joinKey segs := by
  cases segs with
  | nil =>
    rw [parseKeyFromUrlOrKey, urlPathname_getUrl bucket region (joinKey []) hb hr]
    rfl
  | cons s0 rest =>
    have hsplit : splitByP (fun c => c = '/') (joinKey (s0 :: rest)).data
        = (s0 :: rest).map String.data := by
      rw [joinKey_cons_data]
      apply splitByP_joinSlash
      · simp
      · intro t ht c hc
        obtain ⟨u, hu, rfl⟩ := List.mem_map.mp ht
        simp [hseg u hu c hc]
      · decide
    have hsk : (safeKeyOf (joinKey (s0 :: rest))).data
        = joinSlash (((s0 :: rest).map String.data).map encList) := by
      show joinSlash
        ((splitByP (fun c => c = '/') (joinKey (s0 :: rest)).data).map encList) = _
      rw [hsplit]
    have hencsep : ∀ t ∈ ((s0 :: rest).map String.data).map encList,
        ∀ c ∈ t, isSep c = false := by
      intro t ht c hc
      obtain ⟨u, hu, rfl⟩ := List.mem_map.mp ht
      exact (hostEnd_false c (encList_hostEnd u c hc)).2.1
    have hdots : ∀ t ∈ ((s0 :: rest).map String.data).map encList,
        isDot1 t = false ∧ isDot2 t = false := by
      intro t ht
      obtain ⟨u, hu, rfl⟩ := List.mem_map.mp ht
      obtain ⟨v, hv, rfl⟩ := List.mem_map.mp hu
      exact encList_not_dot v (hnd v hv).2.1 (hnd v hv).2.2
    have hp := urlPathname_getUrl bucket region (joinKey (s0 :: rest)) hb hr
    rw [hsk] at hp
    rw [splitByP_joinSlash isSep _ (by simp) hencsep (by decide)] at hp
    rw [normSegs_id _ hdots [], List.nil_append] at hp
    rw [serPath_join _ (by simp)] at hp
    rw [parseKeyFromUrlOrKey, hp]
    have hs0ne : encList s0.data ≠ [] :=
      encList_ne_nil _ (data_ne_nil s0 (hnd s0 (by simp)).1)
    have hdrop : dropLeadSlashes ⟨'/' :: joinSlash (((s0 :: rest).map String.data).map encList)⟩
        = ⟨joinSlash (((s0 :: rest).map String.data).map encList)⟩ := by
      show (⟨List.dropWhile (fun c => c = '/')
        ('/' :: joinSlash (((s0 :: rest).map String.data).map encList))⟩ : String) = _
      rw [List.dropWhile_cons_of_pos (by decide)]
      rw [show ((s0 :: rest).map String.data).map encList
          = encList s0.data :: ((rest.map String.data).map encList) from rfl]
      have hjsl : ∃ t, joinSlash (encList s0.data :: ((rest.map String.data).map encList))
          = encList s0.data ++ t := by
        cases rest with
        | nil => exact ⟨[], by simp [joinSlash]⟩
        | cons s1 rest2 => exact ⟨_, rfl⟩
      obtain ⟨t, hjt⟩ := hjsl
      rw [hjt]
      cases hE : encList s0.data with
      | nil => exact absurd hE hs0ne
      | cons c cs2 =>
        rw [List.cons_append]
        rw [List.dropWhile_cons_of_neg (by
          have hc : c ∈ encList s0.data := by
            rw [hE]
            simp
          have := (hostEnd_false c (encList_hostEnd s0.data c hc)).2.2
          simpa using this)]
    dsimp only
    rw [hdrop, decode_joinEnc _ (by simp)]
    rfl

/-- C1 as stated is false: the key `.` is a single segment that
percent-encoding round-trips and whose encoding introduces no slash, yet
the WHATWG parser collapses the `/.` path, so parsing the public URL
built for it yields `""`, not `"."`. -/
theorem C1_roundTrip_counterexample :
    (decodeURIComponent (encodeURIComponent ".") = some "." ∧
      (∀ c ∈ (encodeURIComponent ".").data, ¬(c = '/')) ∧
      (∀ c ∈ ("." : String).data, ¬(c = '/'))) ∧
    parseKeyFromUrlOrKey (getUrlPublic "b" "r" (joinKey ["."])) ≠ joinKey ["."] := by
  constructor
  · refine ⟨by decide, by decide, by decide⟩
  · decide

/-- Witness for `C1_publicUrl_key_roundTrip` at a concrete input. -/
theorem C1_publicUrl_key_roundTrip_witness :
    parseKeyFromUrlOrKey (getUrlPublic "b" "r" (joinKey ["img", "a.png"]))
      = joinKey ["img", "a.png"] :=
  C1_publicUrl_key_roundTrip "b" "r" (by decide) (by decide) ["img", "a.png"]
    (by decide) (by decide) (by decide) (by decide)

/-! ## The editor model

The host editor exposes `getValue`, `replaceRange`, `getCursor`,
`setCursor`, `offsetToPos` and `posToOffset`.  Positions are modelled as
absolute character offsets: `offsetToPos`/`posToOffset` become the
identity, and equality of `(line, ch)` pairs corresponds exactly to
equality of offsets because `offsetToPos` is injective on a fixed
document.  `replaceRange` changes the text only; the cursor is a
separate field that only `setCursor` moves. -/

structure EditorState where
  doc : String
  cursor : Nat
deriving DecidableEq

/-- `tok` is a leading subsequence of `hay`. -/
def leadsWith : List Char → List Char → Bool
  | [], _ => true
  | _ :: _, [] => false
  | t :: ts, c :: cs => t = c && leadsWith ts cs

/-- Models JS `hay.indexOf(tok)`: the first index at which `tok` occurs,
`none` for the `-1` result. -/
def idxOf (tok : List Char) : List Char → Option Nat
  | [] => if leadsWith tok [] then some 0 else none
  | c :: hs =>
    if leadsWith tok (c :: hs) then some 0
    else (fun n => n + 1) <$> idxOf tok hs

/-- Splice `repl` over the span `[i, i+len)` of `cs`. -/
def replaceAt (cs : List Char) (i len : Nat) (repl : List Char) : List Char :=
  cs.take i ++ repl ++ cs.drop (i + len)

/-- Models JS `s.replace(tok, repl)` with a plain-string pattern:
replace the first occurrence only; no occurrence leaves `s` unchanged. -/
def replaceFirst (s tok repl : String) : String :=
  match idxOf tok.data s.data with
  | none => s
  | some i => ⟨replaceAt s.data i tok.data.length repl.data⟩

/-- Models `doc.includes(token)`. -/
def containsTok (s tok : String) : Bool := (idxOf tok.data s.data).isSome

/-! ## Success reconciliation (editor-paste handler, lines 145-161)

On upload success the handler re-locates the placeholder by content
search, replaces exactly that span with `![](<url>)`, and, only when the
cursor sat exactly at the end of the token span, moves it to the end of
the inserted reference. -/

def reconcileSuccess (token url : String) (st : EditorState) : EditorState :=
  match idxOf token.data st.doc.data with
  | none => st
  | some idx =>
    let finalMd : String := "![](" ++ url ++ ")"
    let toOff := idx + token.data.length
    let wasAfterToken := st.cursor == toOff
    let doc2 : String := ⟨replaceAt st.doc.data idx token.data.length finalMd.data⟩
    if wasAfterToken then ⟨doc2, idx + finalMd.data.length⟩ else ⟨doc2, st.cursor⟩

/-- C2: when the placeholder is found at index `idx`, the token span is
replaced by `![](<url>)`; a cursor that sat exactly at the end of the
token span lands at the end of the inserted reference, and every other
cursor position is left untouched. -/
theorem C2_cursor_preservation (token url : String) (st : EditorState) (idx : Nat)
    (hfind : idxOf token.data st.doc.data = some idx) :
    (reconcileSuccess token url st).doc =
      ⟨replaceAt st.doc.data idx token.data.length ("![](" ++ url ++ ")").data⟩ ∧
    (st.cursor = idx + token.data.length →
      (reconcileSuccess token url st).cursor = idx + ("![](" ++ url ++ ")").data.length) ∧
    (st.cursor ≠ idx + token.data.length →
      (reconcileSuccess token url st).cursor = st.cursor) := by
  unfold reconcileSuccess
  rw [hfind]
  dsimp only
  by_cases hc : st.cursor = idx + token.data.length
  · rw [if_pos (by simpa using hc)]
    exact ⟨rfl, fun _ => rfl, fun h => absurd hc h⟩
  · rw [if_neg (by simpa using hc)]
    exact ⟨rfl, fun h => absurd h hc, fun _ => rfl⟩

/-- Witness for `C2_cursor_preservation`: buffer `"abc" ++ token` with
the cursor at the end becomes `"abc![](u)"` with the cursor at its end
(offset 9), and a cursor elsewhere (offset 1) stays at 1. -/
theorem C2_cursor_preservation_witness :
    (reconcileSuccess "\x7b\x7bTOS_UPLOADING:1-abcdef\x7d\x7d" "u"
        ⟨"abc\x7b\x7bTOS_UPLOADING:1-abcdef\x7d\x7d", 29⟩).doc = "abc![](u)" ∧
    (reconcileSuccess "\x7b\x7bTOS_UPLOADING:1-abcdef\x7d\x7d" "u"
        ⟨"abc\x7b\x7bTOS_UPLOADING:1-abcdef\x7d\x7d", 29⟩).cursor = 9 ∧
    (reconcileSuccess "\x7b\x7bTOS_UPLOADING:1-abcdef\x7d\x7d" "u"
        ⟨"abc\x7b\x7bTOS_UPLOADING:1-abcdef\x7d\x7d", 1⟩).cursor = 1 := by
  have h1 := C2_cursor_preservation "\x7b\x7bTOS_UPLOADING:1-abcdef\x7d\x7d" "u"
    ⟨"abc\x7b\x7bTOS_UPLOADING:1-abcdef\x7d\x7d", 29⟩ 3 (by decide)
  have h2 := C2_cursor_preservation "\x7b\x7bTOS_UPLOADING:1-abcdef\x7d\x7d" "u"
    ⟨"abc\x7b\x7bTOS_UPLOADING:1-abcdef\x7d\x7d", 1⟩ 3 (by decide)
  refine ⟨?_, ?_, ?_⟩
  · rw [h1.1]
    decide
  · rw [h1.2.1 (by decide)]
    decide
  · rw [h2.2.2 (by decide)]

/-! ## The image-reference pattern `/!\[.*?\]\((.*?)\)/`

Backtracking semantics of the lazy pattern at one candidate position:
after a literal `![`, `.*?\]\(` matches the smallest prefix (of
non-newline characters) followed by `](`, and `(.*?)\)` captures the
smallest run (of non-newline characters) followed by `)`.  A full match
therefore has the shape `![` ++ A ++ `](` ++ B ++ `)` with minimal `A`
and `B`; its length is `5 + |A| + |B|` and the capture group is `B`. -/

/-- Smallest `k` such that `](` occurs at offset `k` with no newline
before it (the `.*?\]\(` step). -/
def findBrackParen : List Char → Option Nat
  | [] => none
  | c :: cs =>
    if c = ']' ∧ cs.head? = some '(' then some 0
    else if c = '\n' then none
    else (fun n => n + 1) <$> findBrackParen cs

/-- Smallest `m` such that `)` occurs at offset `m` with no newline
before it (the `(.*?)\)` step). -/
def findCloseParen : List Char → Option Nat
  | [] => none
  | c :: cs =>
    if c = ')' then some 0
    else if c = '\n' then none
    else (fun n => n + 1) <$> findCloseParen cs

/-- Match the pattern at the start of `cs`: `some (length, group)`. -/
def matchRefAt (cs : List Char) : Option (Nat × List Char) :=
  match cs with
  | c1 :: c2 :: rest =>
    if c1 = '!' ∧ c2 = '[' then
      match findBrackParen rest with
      | none => none
      | some k =>
        match findCloseParen (rest.drop (k + 2)) with
        | none => none
        | some m => some (5 + k + m, (rest.drop (k + 2)).take m)
    else none
  | _ => none

/-- Leftmost match: `some (index, length, group)`. -/
def firstRef : List Char → Option (Nat × Nat × List Char)
  | [] => none
  | c :: cs =>
    match matchRefAt (c :: cs) with
    | some (len, g) => some (0, len, g)
    | none => (fun r => (r.1 + 1, r.2.1, r.2.2)) <$> firstRef cs

theorem findBrackParen_bound (cs : List Char) (k : Nat)
    (h : findBrackParen cs = some k) : k + 2 ≤ cs.length := by
  induction cs generalizing k with
  | nil => exact absurd h (by simp [findBrackParen])
  | cons c cs ih =>
    rw [findBrackParen] at h
    split_ifs at h with h1 h2
    · obtain ⟨-, hh⟩ := h1
      cases cs with
      | nil => exact absurd hh (by simp)
      | cons d ds =>
        simp only [Option.some.injEq] at h
        simp [← h]
    · cases hf : findBrackParen cs with
      | none => rw [hf] at h; exact absurd h (by simp)
      | some k2 =>
        rw [hf] at h
        simp only [Option.map_some, Option.some.injEq] at h
        have := ih k2 hf
        simp only [List.length_cons]
        omega

theorem findCloseParen_bound (cs : List Char) (m : Nat)
    (h : findCloseParen cs = some m) : m + 1 ≤ cs.length := by
  induction cs generalizing m with
  | nil => exact absurd h (by simp [findCloseParen])
  | cons c cs ih =>
    rw [findCloseParen] at h
    split_ifs at h with h1 h2
    · simp only [Option.some.injEq] at h
      simp [← h]
    · cases hf : findCloseParen cs with
      | none => rw [hf] at h; exact absurd h (by simp)
      | some m2 =>
        rw [hf] at h
        simp only [Option.map_some, Option.some.injEq] at h
        have := ih m2 hf
        simp only [List.length_cons]
        omega

theorem matchRefAt_bound (cs : List Char) (len : Nat) (g : List Char)
    (h : matchRefAt cs = some (len, g)) : 1 ≤ len ∧ len ≤ cs.length := by
  unfold matchRefAt at h
  match cs, h with
  | c1 :: c2 :: rest, h =>
    dsimp only at h
    split_ifs at h with h1
    · cases hb : findBrackParen rest with
      | none => rw [hb] at h; exact absurd h (by simp)
      | some k =>
        rw [hb] at h
        dsimp only at h
        cases hc : findCloseParen (rest.drop (k + 2)) with
        | none => rw [hc] at h; exact absurd h (by simp)
        | some m =>
          rw [hc] at h
          simp only [Option.some.injEq, Prod.mk.injEq] at h
          have hbb := findBrackParen_bound rest k hb
          have hcb := findCloseParen_bound _ m hc
          rw [List.length_drop] at hcb
          simp only [List.length_cons]
          omega

theorem firstRef_bound (cs : List Char) (i len : Nat) (g : List Char)
    (h : firstRef cs = some (i, len, g)) : 1 ≤ len ∧ i + len ≤ cs.length := by
  induction cs generalizing i len g with
  | nil => exact absurd h (by simp [firstRef])
  | cons c cs ih =>
    rw [firstRef] at h
    cases hm : matchRefAt (c :: cs) with
    | some r =>
      rw [hm] at h
      dsimp only at h
      simp only [Option.some.injEq, Prod.mk.injEq] at h
      obtain ⟨hi, hlen, -⟩ := h
      have := matchRefAt_bound (c :: cs) r.1 r.2 (by rw [hm])
      subst hi
      simp only [List.length_cons] at this ⊢
      omega
    | none =>
      rw [hm] at h
      cases hf : firstRef cs with
      | none => rw [hf] at h; exact absurd h (by simp)
      | some r =>
        rw [hf] at h
        simp only [Option.map_some, Option.some.injEq, Prod.mk.injEq] at h
        obtain ⟨hi, hlen, -⟩ := h
        have := ih r.1 r.2.1 r.2.2 (by rw [hf])
        subst hi
        subst hlen
        simp only [List.length_cons]
        omega

/-! ## The residual-cleanup pattern
`/!\[\[Pasted image.*?\.(?:png|jpe?g|gif|webp|svg)\]\]/gi` -/

/-- ASCII lowercasing, for the case-insensitive `i` flag. -/
def lowerChar (c : Char) : Char :=
  if 65 ≤ c.toNat ∧ c.toNat ≤ 90 then Char.ofNat (c.toNat + 32) else c

/-- `pat` (given lowercase) is a case-insensitive leading subsequence. -/
def leadsWithCI : List Char → List Char → Bool
  | [], _ => true
  | _ :: _, [] => false
  | p :: ps, c :: cs => p = lowerChar c && leadsWithCI ps cs

/-- Length of `\.(?:png|jpe?g|gif|webp|svg)\]\]` matched at the start
of `cs` (case-insensitive). -/
def extMatchLen (cs : List Char) : Option Nat :=
  if leadsWithCI ".png]]".data cs then some 6
  else if leadsWithCI ".jpeg]]".data cs then some 7
  else if leadsWithCI ".jpg]]".data cs then some 6
  else if leadsWithCI ".gif]]".data cs then some 6
  else if leadsWithCI ".webp]]".data cs then some 7
  else if leadsWithCI ".svg]]".data cs then some 6
  else none

/-- The `.*?` step before the extension: smallest skip `k` (over
non-newline characters) at which the extension-and-`]]` tail matches. -/
def findExt : List Char → Option (Nat × Nat)
  | [] => none
  | c :: cs =>
    match extMatchLen (c :: cs) with
    | some l => some (0, l)
    | none =>
      if c = '\n' then none
      else (fun p => (p.1 + 1, p.2)) <$> findExt cs

/-- Match the cleanup pattern at the start of `cs` (length). -/
def matchCleanAt (cs : List Char) : Option Nat :=
  if leadsWithCI "![[pasted image".data cs then
    match findExt (cs.drop 15) with
    | some (k, l) => some (15 + k + l)
    | none => none
  else none

/-- Leftmost cleanup-pattern match: `some (index, length)`. -/
def firstClean : List Char → Option (Nat × Nat)
  | [] => none
  | c :: cs =>
    match matchCleanAt (c :: cs) with
    | some len => some (0, len)
    | none => (fun p => (p.1 + 1, p.2)) <$> firstClean cs

/-- The cleanup loop of the paste handler (lines 164-175): repeatedly
delete the span of the leftmost match and re-scan from the start.  Each
deletion strictly shrinks the text, so the text length bounds the number
of iterations; the fuel argument makes that bound explicit. -/
def cleanupFuel : Nat → List Char → List Char
  | 0, cs => cs
  | fuel + 1, cs =>
    match firstClean cs with
    | none => cs
    | some (i, len) => cleanupFuel fuel (cs.take i ++ cs.drop (i + len))

def cleanupDoc (s : String) : String := ⟨cleanupFuel s.data.length s.data⟩

theorem leadsWithCI_bound (ps cs : List Char) (h : leadsWithCI ps cs = true) :
    ps.length ≤ cs.length := by
  induction ps generalizing cs with
  | nil => simp
  | cons p ps ih =>
    cases cs with
    | nil => exact absurd h (by simp [leadsWithCI])
    | cons c cs =>
      rw [leadsWithCI, Bool.and_eq_true] at h
      have := ih cs h.2
      simp only [List.length_cons]
      omega

theorem extMatchLen_bound (cs : List Char) (l : Nat) (h : extMatchLen cs = some l) :
    1 ≤ l ∧ l ≤ cs.length := by
  unfold extMatchLen at h
  split_ifs at h with h1 h2 h3 h4 h5 h6 <;>
    simp only [Option.some.injEq] at h <;> subst h
  · exact ⟨by omega, le_trans (by decide) (leadsWithCI_bound _ _ h1)⟩
  · exact ⟨by omega, le_trans (by decide) (leadsWithCI_bound _ _ h2)⟩
  · exact ⟨by omega, le_trans (by decide) (leadsWithCI_bound _ _ h3)⟩
  · exact ⟨by omega, le_trans (by decide) (leadsWithCI_bound _ _ h4)⟩
  · exact ⟨by omega, le_trans (by decide) (leadsWithCI_bound _ _ h5)⟩
  · exact ⟨by omega, le_trans (by decide) (leadsWithCI_bound _ _ h6)⟩

theorem findExt_bound (cs : List Char) (k l : Nat) (h : findExt cs = some (k, l)) :
    1 ≤ l ∧ k + l ≤ cs.length := by
  induction cs generalizing k l with
  | nil => exact absurd h (by simp [findExt])
  | cons c cs ih =>
    rw [findExt] at h
    cases hm : extMatchLen (c :: cs) with
    | some l2 =>
      rw [hm] at h
      simp only [Option.some.injEq, Prod.mk.injEq] at h
      obtain ⟨hk, hl⟩ := h
      subst hk
      subst hl
      have := extMatchLen_bound (c :: cs) l2 hm
      omega
    | none =>
      rw [hm] at h
      dsimp only at h
      by_cases hnl : c = '\n'
      · rw [if_pos hnl] at h
        exact absurd h (by simp)
      · rw [if_neg hnl] at h
        cases hf : findExt cs with
        | none => rw [hf] at h; exact absurd h (by simp)
        | some p =>
          rw [hf] at h
          simp only [Option.map_some, Option.some.injEq, Prod.mk.injEq] at h
          obtain ⟨hk, hl⟩ := h
          have := ih p.1 p.2 (by rw [hf])
          simp only [List.length_cons]
          omega

theorem matchCleanAt_bound (cs : List Char) (len : Nat) (h : matchCleanAt cs = some len) :
    1 ≤ len ∧ len ≤ cs.length := by
  unfold matchCleanAt at h
  split_ifs at h with h1
  · cases hf : findExt (cs.drop 15) with
    | none => rw [hf] at h; exact absurd h (by simp)
    | some p =>
      rw [hf] at h
      simp only [Option.some.injEq] at h
      have hb := findExt_bound _ p.1 p.2 (by rw [hf])
      have hlen := leadsWithCI_bound _ _ h1
      rw [List.length_drop] at hb
      have h15 : (15 : Nat) ≤ cs.length := le_trans (by decide) hlen
      omega

theorem firstClean_bound (cs : List Char) (i len : Nat)
    (h : firstClean cs = some (i, len)) : 1 ≤ len ∧ i + len ≤ cs.length := by
  induction cs generalizing i len with
  | nil => exact absurd h (by simp [firstClean])
  | cons c cs ih =>
    rw [firstClean] at h
    cases hm : matchCleanAt (c :: cs) with
    | some l2 =>
      rw [hm] at h
      simp only [Option.some.injEq, Prod.mk.injEq] at h
      obtain ⟨hi, hl⟩ := h
      subst hi
      subst hl
      exact ⟨(matchCleanAt_bound _ _ hm).1, by simpa using (matchCleanAt_bound _ _ hm).2⟩
    | none =>
      rw [hm] at h
      cases hf : firstClean cs with
      | none => rw [hf] at h; exact absurd h (by simp)
      | some p =>
        rw [hf] at h
        simp only [Option.map_some, Option.some.injEq, Prod.mk.injEq] at h
        have := ih p.1 p.2 (by rw [hf])
        rw [← h.1, ← h.2]
        simp only [List.length_cons]
        omega

theorem cleanupFuel_noMatch (fuel : Nat) (cs : List Char) (hf : cs.length ≤ fuel) :
    firstClean (cleanupFuel fuel cs) = none := by
  induction fuel generalizing cs with
  | zero =>
    have : cs = [] := List.length_eq_zero.mp (by omega)
    subst this
    rfl
  | succ fuel ih =>
    rw [cleanupFuel]
    cases hm : firstClean cs with
    | none => exact hm
    | some p =>
      dsimp only
      obtain ⟨h1, h2⟩ := firstClean_bound cs p.1 p.2 (by rw [hm])
      apply ih
      rw [List.length_append, List.length_take, List.length_drop]
      omega

/-- C5: the residual-cleanup loop is total (the definition carries its
termination bound) and its result contains no further match of the
`![[Pasted image ...<ext>]]` pattern; on
`![[Pasted image 1.png]]x![[Pasted image 2.jpg]]` it returns `x`. -/
theorem C5_cleanup_no_residual (buf : String) :
    firstClean (cleanupDoc buf).data = none ∧
    cleanupDoc "![[Pasted image 1.png]]x![[Pasted image 2.jpg]]" = "x" :=
  ⟨cleanupFuel_noMatch buf.data.length buf.data le_rfl, by decide⟩

/-! ## Decimal rendering of numbers (template-string interpolation) -/

def digitChar (n : Nat) : Char := Char.ofNat (48 + n)

def natDecAux : Nat → Nat → List Char
  | 0, _ => []
  | fuel + 1, n =>
    if n < 10 then [digitChar n] else natDecAux fuel (n / 10) ++ [digitChar (n % 10)]

/-- Decimal digits of `n`, most significant first (the fuel `n + 1`
bounds the digit count). -/
def natDec (n : Nat) : List Char := natDecAux (n + 1) n

def natDecStr (n : Nat) : String := ⟨natDec n⟩

def parseDecAcc : Nat → List Char → Nat
  | acc, [] => acc
  | acc, c :: cs => parseDecAcc (acc * 10 + (c.toNat - 48)) cs

theorem parseDecAcc_append (xs : List Char) (d : Char) :
    ∀ acc, parseDecAcc acc (xs ++ [d]) = parseDecAcc acc xs * 10 + (d.toNat - 48) := by
  induction xs with
  | nil => intro acc; rfl
  | cons c cs ih =>
    intro acc
    exact ih (acc * 10 + (c.toNat - 48))

theorem digitChar_toNat (n : Nat) (h : n < 10) : (digitChar n).toNat = 48 + n := by
  interval_cases n <;> decide

theorem natDecAux_correct (fuel : Nat) :
    ∀ n, n < fuel → parseDecAcc 0 (natDecAux fuel n) = n ∧ natDecAux fuel n ≠ [] ∧
      ∀ c ∈ natDecAux fuel n, 48 ≤ c.toNat ∧ c.toNat ≤ 57 := by
  induction fuel with
  | zero => intro n h; omega
  | succ fuel ih =>
    intro n h
    by_cases h10 : n < 10
    · rw [natDecAux, if_pos h10]
      have hd := digitChar_toNat n h10
      refine ⟨?_, by simp, ?_⟩
      · show parseDecAcc (0 * 10 + ((digitChar n).toNat - 48)) [] = n
        rw [hd]
        show 0 * 10 + (48 + n - 48) = n
        omega
      · intro c hc
        simp only [List.mem_singleton] at hc
        subst hc
        omega
    · rw [natDecAux, if_neg h10]
      have hrec := ih (n / 10) (by omega)
      have hd := digitChar_toNat (n % 10) (by omega)
      refine ⟨?_, by simp [hrec.2.1], ?_⟩
      · rw [parseDecAcc_append, hrec.1, hd]
        omega
      · intro c hc
        rcases List.mem_append.mp hc with hc | hc
        · exact hrec.2.2 c hc
        · simp only [List.mem_singleton] at hc
          subst hc
          omega

theorem natDec_spec (n : Nat) :
    parseDecAcc 0 (natDec n) = n ∧ natDec n ≠ [] ∧
      ∀ c ∈ natDec n, 48 ≤ c.toNat ∧ c.toNat ≤ 57 :=
  natDecAux_correct (n + 1) n (by omega)

theorem natDec_inj (a b : Nat) (h : natDec a = natDec b) : a = b := by
  have ha := (natDec_spec a).1
  have hb := (natDec_spec b).1
  rw [h] at ha
  omega

theorem natDec_no_dash (n : Nat) : ∀ c ∈ natDec n, ¬(c = '-') := by
  intro c hc he
  have := (natDec_spec n).2.2 c hc
  subst he
  revert this
  decide

/-! ## Global matching and stripping of image references

`matchAllFuel`/`stripRefsFuel` model `all.matchAll(re)` and
`all.replace(re, "")` with the global flag: after each match the scan
resumes immediately after the matched span.  Every match is at least one
character long, so the text length bounds the number of matches; the
fuel argument makes that bound explicit. -/

def matchAllFuel : Nat → List Char → List (Nat × Nat × List Char)
  | 0, _ => []
  | fuel + 1, cs =>
    match firstRef cs with
    | none => []
    | some (i, len, g) =>
      (i, len, g) :: (matchAllFuel fuel (cs.drop (i + len))).map
        (fun r => (i + len + r.1, r.2.1, r.2.2))

/-- All matches of `/!\[.*?\]\((.*?)\)/g`, as `(index, length, group)`
with absolute indices. -/
def matchAllRef (cs : List Char) : List (Nat × Nat × List Char) := matchAllFuel cs.length cs

def stripRefsFuel : Nat → List Char → List Char
  | 0, cs => cs
  | fuel + 1, cs =>
    match firstRef cs with
    | none => cs
    | some (i, len, _) => cs.take i ++ stripRefsFuel fuel (cs.drop (i + len))

/-- Models `all.replace(/!\[.*?\]\((.*?)\)/g, "")`. -/
def stripRefs (cs : List Char) : List Char := stripRefsFuel cs.length cs

/-- Independent description of removing a list of (sorted, disjoint,
absolutely-indexed) spans from a text: keep everything outside the
spans.  `ofs` is the absolute position of the head of the current
list. -/
def stripSpansFrom : Nat → List Char → List (Nat × Nat × List Char) → List Char
  | _, cs, [] => cs
  | ofs, cs, (i, len, _) :: rest =>
    cs.take (i - ofs) ++ stripSpansFrom (i + len) (cs.drop (i - ofs + len)) rest

def stripSpans (cs : List Char) (spans : List (Nat × Nat × List Char)) : List Char :=
  stripSpansFrom 0 cs spans

theorem stripRefsFuel_spans (fuel : Nat) :
    ∀ (cs : List Char) (ofs : Nat), cs.length ≤ fuel →
      stripRefsFuel fuel cs =
        stripSpansFrom ofs cs
          ((matchAllFuel fuel cs).map (fun r => (ofs + r.1, r.2.1, r.2.2))) := by
  induction fuel with
  | zero =>
    intro cs ofs h
    have : cs = [] := List.length_eq_zero.mp (by omega)
    subst this
    rfl
  | succ fuel ih =>
    intro cs ofs h
    rw [stripRefsFuel, matchAllFuel]
    cases hm : firstRef cs with
    | none => rfl
    | some r =>
      obtain ⟨i, len, g⟩ := r
      dsimp only
      rw [List.map_cons, stripSpansFrom]
      have hofs1 : ofs + i - ofs = i := by omega
      rw [hofs1]
      have hmap : ((matchAllFuel fuel (cs.drop (i + len))).map
          (fun r => (i + len + r.1, r.2.1, r.2.2))).map
            (fun r => (ofs + r.1, r.2.1, r.2.2))
          = (matchAllFuel fuel (cs.drop (i + len))).map
              (fun r => (ofs + i + len + r.1, r.2.1, r.2.2)) := by
        rw [List.map_map]
        apply List.map_congr_left
        intro r hr
        obtain ⟨a, b, g2⟩ := r
        simp only [Function.comp]
        rw [Prod.mk.injEq]
        constructor
        · omega
        · rfl
      rw [hmap]
      obtain ⟨h1, h2⟩ := firstRef_bound cs i len g hm
      rw [← ih (cs.drop (i + len)) (ofs + i + len) (by rw [List.length_drop]; omega)]

theorem stripRefs_spans (cs : List Char) :
    stripRefs cs = stripSpans cs (matchAllRef cs) := by
  have h := stripRefsFuel_spans cs.length cs 0 le_rfl
  show stripRefsFuel cs.length cs = stripSpansFrom 0 cs (matchAllFuel cs.length cs)
  rw [h]
  congr 1
  have hpt : ∀ r ∈ matchAllFuel cs.length cs,
      (fun r : Nat × Nat × List Char => ((0 : Nat) + r.1, r.2.1, r.2.2)) r = id r := by
    intro r hr
    obtain ⟨a, b, g2⟩ := r
    simp [id]
  rw [List.map_congr_left hpt, List.map_id]

/-! ## Delete-one (editor-menu handler, lines 192-212)

The handler matches the cursor line against `/!\[.*?\]\((.*?)\)/`; with
no match the menu item is not offered (no effect).  Otherwise it
resolves the captured group to a storage key, awaits the remote delete,
and only then rewrites the line with the matched text removed; an error
thrown by the delete is caught, a failure notice is shown and the line
is left untouched.  `outcome` models the result of
`deleteByKey`. -/

structure DeleteOneResult where
  line : String
  notices : List String
  deletes : List String
deriving DecidableEq

def deleteOneImage (line : String) (outcome : String → Except String Unit) :
    DeleteOneResult :=
  match firstRef line.data with
  | none => ⟨line, [], []⟩
  | some (i, len, g) =>
    let key := parseKeyFromUrlOrKey ⟨g⟩
    match outcome key with
    | Except.ok _ =>
      ⟨replaceFirst line ⟨(line.data.drop i).take len⟩ "", ["图片删除成功"], [key]⟩
    | Except.error e => ⟨line, ["图片删除失败: " ++ e], [key]⟩

/-- C3 as stated is false: on the line `![a](k)` with a failing remote
delete, the matched text is NOT removed — the handler leaves the line
unchanged and only reports the error. -/
theorem C3_deleteOne_counterexample :
    firstRef ("![a](k)" : String).data = some (0, 7, ("k" : String).data) ∧
    (deleteOneImage "![a](k)" (fun _ => Except.error "E")).line = "![a](k)" ∧
    (deleteOneImage "![a](k)" (fun _ => Except.error "E")).notices = ["图片删除失败: E"] ∧
    ¬((deleteOneImage "![a](k)" (fun _ => Except.error "E")).line = "") := by
  refine ⟨by decide, by decide, by decide, by decide⟩

/-- C3 (amended): a failing remote delete blocks local text removal —
the line is rewritten only when `deleteByKey` succeeds; on error the
handler reports the failure and leaves the line unchanged. -/
theorem C3_deleteOne_failure_keeps_line (line : String)
    (f : String → Except String Unit) (i len : Nat) (g : List Char)
    (hm : firstRef line.data = some (i, len, g)) :
    (∀ e, f (parseKeyFromUrlOrKey ⟨g⟩) = Except.error e →
      (deleteOneImage line f).line = line ∧
      (deleteOneImage line f).notices = ["图片删除失败: " ++ e] ∧
      (deleteOneImage line f).deletes = [parseKeyFromUrlOrKey ⟨g⟩]) ∧
    (f (parseKeyFromUrlOrKey ⟨g⟩) = Except.ok () →
      (deleteOneImage line f).line = replaceFirst line ⟨(line.data.drop i).take len⟩ "" ∧
      (deleteOneImage line f).notices = ["图片删除成功"]) := by
  unfold deleteOneImage
  rw [hm]
  dsimp only
  constructor
  · intro e he
    rw [he]
    exact ⟨rfl, rfl, rfl⟩
  · intro hok
    rw [hok]
    exact ⟨rfl, rfl⟩

/-- Witness for `C3_deleteOne_failure_keeps_line` at a concrete input. -/
theorem C3_deleteOne_failure_keeps_line_witness :
    (deleteOneImage "![a](k)" (fun _ => Except.error "E")).line = "![a](k)" ∧
    (deleteOneImage "pre ![a](k) post" (fun _ => Except.ok ())).line = "pre  post" := by
  have h1 := (C3_deleteOne_failure_keeps_line "![a](k)" (fun _ => Except.error "E")
    0 7 ("k" : String).data (by decide)).1 "E" rfl
  have h2 := (C3_deleteOne_failure_keeps_line "pre ![a](k) post" (fun _ => Except.ok ())
    4 7 ("k" : String).data (by decide)).2 rfl
  refine ⟨h1.1, ?_⟩
  rw [h2.1]
  decide

/-! ## Delete-all (editor-menu handler, lines 215-234)

The handler collects every match of the global image-reference pattern;
with none it reports "no images" and stops.  Otherwise it resolves every
captured group to a key, and — only when an uploader is configured —
issues all remote deletes, reporting each failure individually; in every
case it then rewrites the buffer once with every matched span removed
and reports the deleted count.  `outcome` models `deleteByKey` per
key. -/

structure DeleteAllResult where
  text : String
  notices : List String
  deletes : List String
deriving DecidableEq

def isErrOutcome (r : Except String Unit) : Bool :=
  match r with
  | Except.error _ => true
  | Except.ok _ => false

/-- `matches.map(m => TosUploader.parseKeyFromUrlOrKey(m[1]))`. -/
def allKeys (buf : String) : List String :=
  (matchAllRef buf.data).map (fun r => parseKeyFromUrlOrKey ⟨r.2.2⟩)

/-- One notice per key whose remote delete rejects (the per-key
`.catch(e => new Notice(...))` inside `Promise.all`). -/
def failNoticesOf (buf : String) (outcome : String → Except String Unit) : List String :=
  (allKeys buf).filterMap (fun k =>
    match outcome k with
    | Except.error e => some ("删除失败: " ++ e)
    | Except.ok _ => none)

def deleteAllImages (hasUploader : Bool) (buf : String)
    (outcome : String → Except String Unit) : DeleteAllResult :=
  if (matchAllRef buf.data).length = 0 then ⟨buf, ["未发现图片"], []⟩
  else
    ⟨⟨stripRefs buf.data⟩,
      (if hasUploader then failNoticesOf buf outcome else []) ++
        ["已删除 " ++ natDecStr (allKeys buf).length ++ " 张图片"],
      if hasUploader then allKeys buf else []⟩

theorem deleteAllImages_pos (u : Bool) (buf : String) (f : String → Except String Unit)
    (h : ¬((matchAllRef buf.data).length = 0)) :
    deleteAllImages u buf f =
      ⟨⟨stripRefs buf.data⟩,
        (if u then failNoticesOf buf f else []) ++
          ["已删除 " ++ natDecStr (allKeys buf).length ++ " 张图片"],
        if u then allKeys buf else []⟩ := by
  unfold deleteAllImages
  rw [if_neg h]

theorem failNoticesOf_length (buf : String) (f : String → Except String Unit) :
    (failNoticesOf buf f).length = (allKeys buf).countP (fun k => isErrOutcome (f k)) := by
  unfold failNoticesOf
  induction allKeys buf with
  | nil => rfl
  | cons k ks ih =>
    cases hf : f k <;>
      simp [List.filterMap_cons, List.countP_cons, hf, isErrOutcome, ih]

/-- C4: with at least one image reference in the buffer, delete-all
strips exactly the matched spans in one rewrite, the resulting text does
not depend on the remote-delete outcomes, and one failure notice is
produced per failing key (next to the single count notice). -/
theorem C4_deleteAll_partial_failure (buf : String) (u : Bool)
    (f g : String → Except String Unit) (h : matchAllRef buf.data ≠ []) :
    (deleteAllImages u buf f).text.data = stripSpans buf.data (matchAllRef buf.data) ∧
    (deleteAllImages u buf f).text = (deleteAllImages u buf g).text ∧
    (deleteAllImages true buf f).notices.length =
      (allKeys buf).countP (fun k => isErrOutcome (f k)) + 1 := by
  have hlen : ¬((matchAllRef buf.data).length = 0) := by
    simpa [List.length_eq_zero] using h
  rw [deleteAllImages_pos u buf f hlen, deleteAllImages_pos u buf g hlen,
    deleteAllImages_pos true buf f hlen]
  refine ⟨?_, rfl, ?_⟩
  · exact stripRefs_spans buf.data
  · dsimp only
    rw [if_pos rfl]
    rw [List.length_append, failNoticesOf_length]
    rfl

/-- Witness for `C4_deleteAll_partial_failure`: two references, the
remote delete of `k2` fails — both references are stripped and exactly
one failure notice accompanies the count notice. -/
theorem C4_deleteAll_partial_failure_witness :
    matchAllRef ("![a](k1)x![b](k2)" : String).data ≠ [] ∧
    (deleteAllImages true "![a](k1)x![b](k2)"
      (fun k => if k = "k2" then Except.error "E" else Except.ok ())).text = "x" ∧
    (deleteAllImages true "![a](k1)x![b](k2)"
      (fun k => if k = "k2" then Except.error "E" else Except.ok ())).notices =
        ["删除失败: E", "已删除 2 张图片"] := by
  have h := C4_deleteAll_partial_failure "![a](k1)x![b](k2)" true
    (fun k => if k = "k2" then Except.error "E" else Except.ok ())
    (fun _ => Except.ok ()) (by decide)
  refine ⟨by decide, ?_, by decide⟩
  apply String.ext
  rw [h.1]
  decide

/-- C7: delete-all on a buffer with no image reference is a no-op — it
reports the informational notice, issues no remote delete, leaves the
buffer unchanged, and running it again on the result gives the same
outcome (idempotence). -/
theorem C7_deleteAll_noop (u : Bool) (buf : String) (f : String → Except String Unit)
    (h : matchAllRef buf.data = []) :
    deleteAllImages u buf f = ⟨buf, ["未发现图片"], []⟩ ∧
    deleteAllImages u (deleteAllImages u buf f).text f = ⟨buf, ["未发现图片"], []⟩ := by
  have h1 : deleteAllImages u buf f = ⟨buf, ["未发现图片"], []⟩ := by
    unfold deleteAllImages
    rw [if_pos (by rw [h]; rfl)]
  refine ⟨h1, ?_⟩
  rw [h1]
  exact h1

/-- Witness for `C7_deleteAll_noop` on the buffer `hello`. -/
theorem C7_deleteAll_noop_witness :
    matchAllRef ("hello" : String).data = [] ∧
    deleteAllImages true "hello" (fun _ => Except.ok ()) = ⟨"hello", ["未发现图片"], []⟩ :=
  ⟨by decide, (C7_deleteAll_noop true "hello" (fun _ => Except.ok ()) (by decide)).1⟩

/-- C10: with no uploader configured, delete-all still strips every
matched span and reports the count, while issuing zero remote
deletes. -/
theorem C10_deleteAll_noUploader (buf : String) (f : String → Except String Unit)
    (h : matchAllRef buf.data ≠ []) :
    (deleteAllImages false buf f).deletes = [] ∧
    (deleteAllImages false buf f).text.data = stripSpans buf.data (matchAllRef buf.data) ∧
    (deleteAllImages false buf f).notices =
      ["已删除 " ++ natDecStr (matchAllRef buf.data).length ++ " 张图片"] := by
  have hlen : ¬((matchAllRef buf.data).length = 0) := by
    simpa [List.length_eq_zero] using h
  rw [deleteAllImages_pos false buf f hlen]
  refine ⟨rfl, stripRefs_spans buf.data, ?_⟩
  dsimp only
  rw [if_neg (by simp)]
  rw [show (allKeys buf).length = (matchAllRef buf.data).length from List.length_map _ _]
  rfl

/-- Witness for `C10_deleteAll_noUploader` on `![a](k)`. -/
theorem C10_deleteAll_noUploader_witness :
    matchAllRef ("![a](k)" : String).data ≠ [] ∧
    (deleteAllImages false "![a](k)" (fun _ => Except.error "E")).deletes = [] ∧
    (deleteAllImages false "![a](k)" (fun _ => Except.error "E")).text = "" ∧
    (deleteAllImages false "![a](k)" (fun _ => Except.error "E")).notices =
      ["已删除 1 张图片"] := by
  have h := C10_deleteAll_noUploader "![a](k)" (fun _ => Except.error "E") (by decide)
  refine ⟨by decide, h.1, ?_, ?_⟩
  · apply String.ext
    rw [h.2.1]
    decide
  · rw [h.2.2]
    decide

/-! ## The paste-handler loop (editor-paste handler, lines 134-187)

Each image payload of one paste event is processed strictly in order:
insert a fresh placeholder token at the cursor (the host editor leaves
the cursor after inserted text), dispatch the upload (recorded as a
remote call), then reconcile.  On success the placeholder span becomes
`![](<url>)` (cursor rule of `reconcileSuccess`) and the residual
cleanup loop runs; on failure the first occurrence of the token is
removed by content substitution, the cursor moves to the end of the
document, and a failure notice is shown.  The `catch` wraps one
iteration only, so a failure never aborts the remaining payloads, and
the handler contains no remote delete. -/

inductive RemoteCall where
  | upload : RemoteCall
  | del : String → RemoteCall
deriving DecidableEq

def insertAt (cs : List Char) (i : Nat) (xs : List Char) : List Char :=
  cs.take i ++ xs ++ cs.drop i

/-- One pasted image: its placeholder token and the upload outcome
(`ok url` or `error message`). -/
structure PasteItem where
  token : String
  outcome : Except String String

/-- The failure branch (lines 178-186): if the token still occurs,
remove its first occurrence by content substitution and put the cursor
at the end of the document. -/
def reconcileFailure (token : String) (st : EditorState) : EditorState :=
  if containsTok st.doc token then
    ⟨replaceFirst st.doc token "", (replaceFirst st.doc token "").data.length⟩
  else st

def processItem (st : EditorState) (it : PasteItem) :
    EditorState × List String × List RemoteCall :=
  let st1 : EditorState :=
    ⟨⟨insertAt st.doc.data st.cursor it.token.data⟩, st.cursor + it.token.data.length⟩
  match it.outcome with
  | Except.ok url =>
    let st2 := reconcileSuccess it.token url st1
    (⟨cleanupDoc st2.doc, st2.cursor⟩, ["图片上传成功"], [RemoteCall.upload])
  | Except.error e =>
    (reconcileFailure it.token st1, ["图片上传失败: " ++ e], [RemoteCall.upload])

def processItems (st : EditorState) : List PasteItem →
    EditorState × List String × List RemoteCall
  | [] => (st, [], [])
  | it :: its =>
    let r1 := processItem st it
    let r2 := processItems r1.1 its
    (r2.1, r1.2.1 ++ r2.2.1, r1.2.2 ++ r2.2.2)

/-- C6: on upload failure, when the token occurs at first index `idx` of
the current buffer, exactly that first occurrence is removed, the cursor
goes to the end of the resulting document, and a failure notice is
reported; processing always continues through every remaining payload
(one notice per item), and the paste handler never issues a remote
delete. -/
theorem C6_failure_rollback (token : String) (st : EditorState) (idx : Nat)
    (hfind : idxOf token.data st.doc.data = some idx) :
    ((reconcileFailure token st).doc.data =
        st.doc.data.take idx ++ st.doc.data.drop (idx + token.data.length) ∧
      (reconcileFailure token st).cursor = (reconcileFailure token st).doc.data.length) ∧
    (∀ (st0 : EditorState) (tok e : String),
      (processItem st0 ⟨tok, Except.error e⟩).2.1 = ["图片上传失败: " ++ e] ∧
      (processItem st0 ⟨tok, Except.error e⟩).2.2 = [RemoteCall.upload]) ∧
    (∀ (st0 : EditorState) (its : List PasteItem),
      (processItems st0 its).2.1.length = its.length) ∧
    (∀ (st0 : EditorState) (its : List PasteItem),
      ∀ c ∈ (processItems st0 its).2.2, c = RemoteCall.upload) := by
  refine ⟨?_, fun st0 tok e => ⟨rfl, rfl⟩, ?_, ?_⟩
  · have hct : containsTok st.doc token = true := by
      unfold containsTok
      rw [hfind]
      rfl
    have hrep : replaceFirst st.doc token "" =
        ⟨st.doc.data.take idx ++ st.doc.data.drop (idx + token.data.length)⟩ := by
      unfold replaceFirst
      rw [hfind]
      dsimp only
      unfold replaceAt
      rw [List.append_nil]
    unfold reconcileFailure
    rw [if_pos hct, hrep]
    exact ⟨rfl, rfl⟩
  · intro st0 its
    induction its generalizing st0 with
    | nil => rfl
    | cons it its ih =>
      show (processItems st0 (it :: its)).2.1.length = its.length + 1
      rw [processItems]
      cases ho : it.outcome <;>
        simp [processItem, ho, ih]
  · intro st0 its
    induction its generalizing st0 with
    | nil => intro c hc; exact absurd hc (by simp [processItems])
    | cons it its ih =>
      intro c hc
      rw [processItems] at hc
      rcases List.mem_append.mp hc with hc | hc
      · cases ho : it.outcome <;>
          · rw [show (processItem st0 it).2.2 = [RemoteCall.upload] from by
              unfold processItem
              rw [ho]] at hc
            simpa using hc
      · exact ih _ c hc

/-- Witness for `C6_failure_rollback`: pasting over buffer `A{tok}B`
with upload failure leaves `AB` with the cursor at the end; a two-item
paste with one failure still produces two notices and no delete call. -/
theorem C6_failure_rollback_witness :
    (reconcileFailure "\x7b\x7bTOS_UPLOADING:1-aaaaaa\x7d\x7d" ⟨"A\x7b\x7bTOS_UPLOADING:1-aaaaaa\x7d\x7dB", 0⟩).doc
      = "AB" ∧
    (reconcileFailure "\x7b\x7bTOS_UPLOADING:1-aaaaaa\x7d\x7d" ⟨"A\x7b\x7bTOS_UPLOADING:1-aaaaaa\x7d\x7dB", 0⟩).cursor
      = 2 ∧
    (processItems ⟨"", 0⟩
      [⟨"\x7b\x7bTOS_UPLOADING:1-aaaaaa\x7d\x7d", Except.error "net"⟩,
       ⟨"\x7b\x7bTOS_UPLOADING:2-bbbbbb\x7d\x7d", Except.ok "u"⟩]).2.1.length = 2 := by
  have h := C6_failure_rollback "\x7b\x7bTOS_UPLOADING:1-aaaaaa\x7d\x7d"
    ⟨"A\x7b\x7bTOS_UPLOADING:1-aaaaaa\x7d\x7dB", 0⟩ 1 (by decide)
  refine ⟨?_, ?_, ?_⟩
  · apply String.ext
    rw [h.1.1]
    decide
  · rw [h.1.2, h.1.1]
    decide
  · exact h.2.2.1 ⟨"", 0⟩ _

/-! ## Storage-key naming (`TosUploader.normPrefix` / `uploadFile`) -/

/-- Models `prefix.replace(/^\/+|\/+$/g, "")`: the regex removes the
leading run and the trailing run of slashes. -/
def stripSlashesEnds (s : String) : String :=
  ⟨((s.data.dropWhile (fun c => c = '/')).reverse.dropWhile (fun c => c = '/')).reverse⟩

/-- Models `TosUploader.normPrefix`: strip the slashes, then append one
slash when the result is nonempty. -/
def normPrefixKey (p : String) : String :=
  if stripSlashesEnds p = "" then "" else stripSlashesEnds p ++ "/"

/-- Models `file.name.includes(".") ? file.name.split(".").pop() : ""`:
the part after the last dot, or `""` when there is no dot. -/
def fileExt (name : String) : String :=
  if name.data.contains '.' then ⟨(name.data.reverse.takeWhile (fun c => ¬(c = '.'))).reverse⟩
  else ""

/-- The storage key built by `uploadFile`: normalized prefix, then
`Date.now()` in decimal, then `.<ext>` when the extension is
nonempty. -/
def makeKey (p : String) (now : Nat) (name : String) : String :=
  normPrefixKey p ++
    (if fileExt name ≠ "" then natDecStr now ++ "." ++ fileExt name else natDecStr now)

theorem dropWhile_head_not (p : Char → Bool) (l : List Char) (c : Char)
    (h : (l.dropWhile p).head? = some c) : p c = false := by
  induction l with
  | nil => exact absurd h (by simp)
  | cons x xs ih =>
    by_cases hx : p x
    · rw [List.dropWhile_cons_of_pos hx] at h
      exact ih h
    · rw [List.dropWhile_cons_of_neg hx] at h
      simp only [List.head?_cons, Option.some.injEq] at h
      subst h
      exact Bool.eq_false_iff.mpr hx

/-- C8: the storage key is `<normalized-prefix><epoch-millis>.<ext>`
when the filename has a (nonempty) extension and
`<normalized-prefix><epoch-millis>` otherwise, where the normalized
prefix is the configured prefix with the leading and trailing slash runs
removed, suffixed with exactly one slash when nonempty: the stripped
part carries no leading or trailing slash, and the original prefix is
the stripped part surrounded by slash runs. -/
theorem C8_storage_key_shape (p name : String) (now : Nat) :
    (fileExt name ≠ "" →
      makeKey p now name = normPrefixKey p ++ natDecStr now ++ "." ++ fileExt name) ∧
    (fileExt name = "" → makeKey p now name = normPrefixKey p ++ natDecStr now) ∧
    (stripSlashesEnds p = "" → normPrefixKey p = "") ∧
    (stripSlashesEnds p ≠ "" → normPrefixKey p = stripSlashesEnds p ++ "/") ∧
    (∃ a b, p.data =
      List.replicate a '/' ++ ((stripSlashesEnds p).data ++ List.replicate b '/')) ∧
    ((stripSlashesEnds p).data.head? ≠ some '/' ∧
      (stripSlashesEnds p).data.getLast? ≠ some '/') := by
  refine ⟨?_, ?_, ?_, ?_, ?_, ?_⟩
  · intro h
    unfold makeKey
    rw [if_pos h]
    simp [String.append_assoc]
  · intro h
    unfold makeKey
    rw [if_neg (by simp [h])]
  · intro h
    unfold normPrefixKey
    rw [if_pos h]
  · intro h
    unfold normPrefixKey
    rw [if_neg h]
  · have hA : p.data.takeWhile (fun c => c = '/')
        = List.replicate ((p.data.takeWhile (fun c => c = '/')).length) '/' :=
      List.eq_replicate_of_mem (fun b hb => by
        have := List.mem_takeWhile_imp hb
        simpa using this)
    have hB : (p.data.dropWhile (fun c => c = '/')).reverse.takeWhile (fun c => c = '/')
        = List.replicate (((p.data.dropWhile (fun c => c = '/')).reverse.takeWhile
            (fun c => c = '/')).length) '/' :=
      List.eq_replicate_of_mem (fun b hb => by
        have := List.mem_takeWhile_imp hb
        simpa using this)
    refine ⟨(p.data.takeWhile (fun c => c = '/')).length,
      ((p.data.dropWhile (fun c => c = '/')).reverse.takeWhile (fun c => c = '/')).length, ?_⟩
    conv_lhs => rw [← List.takeWhile_append_dropWhile (fun c => c = '/') p.data]
    rw [← hA]
    refine congrArg (fun x => p.data.takeWhile (fun c => c = '/') ++ x) ?_
    conv_lhs => rw [← List.reverse_reverse (p.data.dropWhile (fun c => c = '/')),
      ← List.takeWhile_append_dropWhile (fun c => c = '/')
        (p.data.dropWhile (fun c => c = '/')).reverse,
      List.reverse_append]
    rw [hB, List.reverse_replicate, List.length_replicate]
    rfl
  · constructor
    · intro hh
      rw [show (stripSlashesEnds p).data =
          ((p.data.dropWhile (fun c => c = '/')).reverse.dropWhile
            (fun c => c = '/')).reverse from rfl, List.head?_reverse] at hh
      obtain ⟨t, ht⟩ := @List.dropWhile_suffix Char
        (p.data.dropWhile (fun c => c = '/')).reverse (fun c => c = '/')
      have h2 : ((p.data.dropWhile (fun c => c = '/')).reverse).getLast? = some '/' := by
        rw [← ht, List.getLast?_append, hh]
        rfl
      rw [List.getLast?_reverse] at h2
      have := dropWhile_head_not (fun c => c = '/') p.data '/' h2
      simp at this
    · intro hh
      rw [show (stripSlashesEnds p).data =
          ((p.data.dropWhile (fun c => c = '/')).reverse.dropWhile
            (fun c => c = '/')).reverse from rfl, List.getLast?_reverse] at hh
      have := dropWhile_head_not (fun c => c = '/')
        (p.data.dropWhile (fun c => c = '/')).reverse '/' hh
      simp at this

/-- Witness for `C8_storage_key_shape`. -/
theorem C8_storage_key_shape_witness :
    makeKey "/img/" 5 "a.png" = normPrefixKey "/img/" ++ natDecStr 5 ++ "." ++ fileExt "a.png" ∧
    makeKey "" 5 "noext" = normPrefixKey "" ++ natDecStr 5 ∧
    makeKey "/img/" 5 "a.png" = "img/5.png" := by
  have h := C8_storage_key_shape "/img/" "a.png" 5
  have h2 := C8_storage_key_shape "" "noext" 5
  exact ⟨h.1 (by decide), h2.2.1 (by decide), by decide⟩

/-! ## Placeholder-token generation (line 139) -/

/-- The placeholder token
`` `{{TOS_UPLOADING:${Date.now()}-${Math.random().toString(36).slice(2, 8)}}}` ``
as a function of the timestamp and the random suffix. -/
def mkToken (t : Nat) (r : String) : String :=
  "\x7b\x7bTOS_UPLOADING:" ++ natDecStr t ++ "-" ++ r ++ "\x7d\x7d"

theorem dash_split : ∀ (a c b d : List Char), (∀ x ∈ a, ¬(x = '-')) →
    (∀ x ∈ c, ¬(x = '-')) → a ++ '-' :: b = c ++ '-' :: d → a = c ∧ b = d := by
  intro a
  induction a with
  | nil =>
    intro c b d ha hc h
    cases c with
    | nil => simpa using h
    | cons y ys =>
      rw [List.nil_append, List.cons_append] at h
      simp only [List.cons.injEq] at h
      exact absurd h.1.symm (hc y (by simp))
  | cons x xs ih =>
    intro c b d ha hc h
    cases c with
    | nil =>
      rw [List.nil_append, List.cons_append] at h
      simp only [List.cons.injEq] at h
      exact absurd h.1 (ha x (by simp))
    | cons y ys =>
      rw [List.cons_append, List.cons_append] at h
      simp only [List.cons.injEq] at h
      obtain ⟨hxy, hrest⟩ := h
      obtain ⟨h1, h2⟩ := ih ys b d (fun z hz => ha z (by simp [hz]))
        (fun z hz => hc z (by simp [hz])) hrest
      subst hxy
      exact ⟨by rw [h1], h2⟩

/-- C9: the token encoding is injective in the timestamp and the random
suffix — tokens generated from different `(time, suffix)` pairs differ,
even within the same millisecond. -/
theorem C9_token_injective (t1 t2 : Nat) (r1 r2 : String)
    (hne : ¬((t1, r1) = (t2, r2))) : ¬(mkToken t1 r1 = mkToken t2 r2) := by
  intro he
  apply hne
  have hd := congrArg String.data he
  simp only [mkToken, String.data_append] at hd
  rw [show (natDecStr t1).data = natDec t1 from rfl,
    show (natDecStr t2).data = natDec t2 from rfl] at hd
  simp only [List.append_assoc] at hd
  have hd2 := List.append_cancel_left hd
  simp only [List.singleton_append] at hd2
  obtain ⟨h1, h2⟩ := dash_split (natDec t1) (natDec t2)
    (r1.data ++ ['\x7d', '\x7d']) (r2.data ++ ['\x7d', '\x7d'])
    (natDec_no_dash t1) (natDec_no_dash t2) hd2
  have ht := natDec_inj t1 t2 h1
  have hr : r1 = r2 := String.ext (List.append_cancel_right h2)
  rw [ht, hr]

/-- Witness for `C9_token_injective`: same suffix, different
timestamps. -/
theorem C9_token_injective_witness : ¬(mkToken 1 "a" = mkToken 2 "a") :=
  C9_token_injective 1 2 "a" "a" (by decide)

end TosPicbed
